import Mathlib

/-!
Verification development for the chunk decoder of `mince-raft-rs`
(`src/world/chunks.rs`).

The Rust code is shallowly embedded as follows:
- machine integers become `Nat` / `Int`; casts that can wrap are written
  with explicit `% 2 ^ w`;
- `i64` values read from the wire are kept as their 64-bit unsigned bit
  patterns (a `Nat < 2 ^ 64`); every shift-and-mask extraction performed by
  the code satisfies `offset + width ≤ 64`, so Rust's arithmetic right
  shift followed by a mask agrees with the logical shift and mask on the
  bit pattern, and the embedding uses `>>>` / `&&&` on `Nat`;
- fallible operations (cursor reads, `Vec` indexing, `unwrap`) return
  `Option`; a Rust panic is modelled as `none` propagating to the caller;
- the byte-stream cursor becomes a parser type `P α`, a function from the
  byte list and current position to `Option (value × new position)`.
-/

set_option maxHeartbeats 1000000
set_option maxRecDepth 40000

namespace MinceRaft

/-- Integer 3-vector, mirroring `glam::IVec3` as used by the source. -/
structure IVec3 where
  x : Int
  y : Int
  z : Int
deriving DecidableEq, Repr

/-- Integer 2-vector, mirroring `glam::IVec2` as used by the source. -/
structure IVec2 where
  x : Int
  y : Int
deriving DecidableEq, Repr

/-- Decoded chunk section: vertical index `y` and 4096 block-state ids
(`ChunkSection { y: i32, blocks: [u16; 4096] }` in the source). -/
structure ChunkSection where
  y : Int
  blocks : List Nat
deriving DecidableEq, Repr

/-- Chunk aggregate (`Chunk { pos, heightmap, sections }` in the source).
The render artifact type (`VertexBuffer<Vertex>`) is opaque to the decoder
and is a type parameter `V`; each section slot is `Option (section, Option V)`
mirroring `[Option<(Arc<RwLock<ChunkSection>>, Option<VBO>)>; 16]`. -/
structure Chunk (V : Type) where
  pos : IVec2
  heightmap : List Nat
  sections : List (Option (ChunkSection × Option V))

/-- Embedding of `ChunkSection::map_from_chunk_coords`: Euclidean remainder
of `y` by 16, `x`/`z` unchanged. Lean's `%` on `Int` is the Euclidean
remainder, matching Rust's `rem_euclid`. -/
def ChunkSection.map_from_chunk_coords (coords : IVec3) : IVec3 :=
  ⟨coords.x, coords.y % 16, coords.z⟩

/-- Embedding of `ChunkSection::map_to_chunk_coords`. -/
def ChunkSection.map_to_chunk_coords (s : ChunkSection) (coords : IVec3) : IVec3 :=
  ⟨coords.x, s.y * 16 + coords.y, coords.z⟩

/-- Embedding of `ChunkSection::section_containing`: the source computes
`y as usize / 16`. The cast `i32 as usize` on a 64-bit target is the
two's-complement reinterpretation, i.e. reduction of the integer modulo
`2 ^ 64`. -/
def ChunkSection.section_containing (y : Int) : Nat :=
  (y % (2 ^ 64 : Int)).toNat / 16

/-- Embedding of `Chunk::get_section`: `sections.get(y).unwrap_or(&None)`
is `List.getD y none`; the lock read guard is modelled as the section
value itself. -/
def Chunk.get_section {V : Type} (c : Chunk V) (y : Nat) : Option ChunkSection :=
  (c.sections.getD y none).map Prod.fst

/-- Embedding of `Chunk::get_section_vbo`. -/
def Chunk.get_section_vbo {V : Type} (c : Chunk V) (y : Nat) : Option V :=
  match c.sections.getD y none with
  | none => none
  | some (_, vbo) => vbo

/-- Embedding of `Chunk::get_section_containing`. -/
def Chunk.get_section_containing {V : Type} (c : Chunk V) (y : Int) : Option ChunkSection :=
  c.get_section (ChunkSection.section_containing y)

/-- Embedding of `Chunk::map_from_world_coords`: Euclidean remainder by 16
on `x` and `z`, `y` unchanged. -/
def Chunk.map_from_world_coords (coords : IVec3) : IVec3 :=
  ⟨coords.x % 16, coords.y, coords.z % 16⟩

/-- Embedding of `Chunk::map_to_world_coords`. The source asserts
`0 <= x < 16` and `0 <= z < 16`; the failed assertion (a panic) is
modelled as `none`. -/
def Chunk.map_to_world_coords (pos : IVec2) (coords : IVec3) : Option IVec3 :=
  if 0 ≤ coords.x ∧ coords.x < 16 ∧ 0 ≤ coords.z ∧ coords.z < 16 then
    some ⟨pos.x * 16 + coords.x, coords.y, pos.y * 16 + coords.z⟩
  else none

/-- Embedding of `Chunk::chunk_containing`: `div_floor` by 16 on both axes
(`Int.fdiv` is floor division). -/
def Chunk.chunk_containing (coords : IVec3) : IVec2 :=
  ⟨Int.fdiv coords.x 16, Int.fdiv coords.z 16⟩

/-! ### Heightmap decoder (`process_heightmap`) -/

/-- Minimal NBT tag tree. Modelled from the spec: the auxiliary structured
tag tree (`mcproto_rs::nbt::Tag`) is external to this repository; the spec
only requires a compound of named entries, one of which holds a sequence
of packed long integers. Long values are kept as 64-bit patterns. -/
inductive Tag where
  | compound : List (String × Tag) → Tag
  | longArray : List Nat → Tag
  | intTag : Int → Tag
  | stringTag : String → Tag

/-- Sequential `Option`-valued map over a list, modelling a loop whose body
can panic: the first failure aborts the whole computation. -/
def listOptMap {α β : Type} (f : α → Option β) : List α → Option (List β)
  | [] => some []
  | a :: rest =>
    match f a with
    | none => none
    | some b => (listOptMap f rest).map (fun bs => b :: bs)

/-- One iteration of the heightmap extraction loop, exactly as written in
the source: `let long = 1 / vals_per_long;` (note the constant `1`, not the
loop index `i`), `offset = (i % vals_per_long) * 9`, value
`(longs[long] >> offset) & 0x1ff`. Indexing `longs[long]` out of bounds is
a panic, hence `Option`. The `as u16` cast is the identity on a 9-bit
value. -/
def heightmapEntry (longs : List Nat) (i : Nat) : Option Nat :=
  let valsPerLong : Nat := 7
  let long : Nat := 1 / valsPerLong
  let offset : Nat := (i % valsPerLong) * 9
  (longs[long]?).map (fun v => (v >>> offset) &&& 0x1ff)

/-- The 256-iteration loop filling the height array from one long array. -/
def heightmapFromLongs (longs : List Nat) : Option (List Nat) :=
  listOptMap (heightmapEntry longs) (List.range 256)

/-- Loop over the named entries of the heightmap compound: an entry whose
payload is a long array named `MOTION_BLOCKING` overwrites the map; every
other entry is skipped (`continue`). -/
def heightmapLoop : List (String × Tag) → List Nat → Option (List Nat)
  | [], m => some m
  | (name, Tag.longArray longs) :: rest, m =>
    if name = "MOTION_BLOCKING" then
      match heightmapFromLongs longs with
      | none => none
      | some m2 => heightmapLoop rest m2
    else heightmapLoop rest m
  | _ :: rest, m => heightmapLoop rest m

/-- Embedding of `process_heightmap`: requires the root payload to be a
compound with exactly two entries, otherwise logs and returns the all-zero
map; then runs the entry loop starting from the all-zero map. -/
def process_heightmap (root : Tag) : Option (List Nat) :=
  match root with
  | Tag.compound heightmaps =>
    if heightmaps.length ≠ 2 then some (List.replicate 256 0)
    else heightmapLoop heightmaps (List.replicate 256 0)
  | _ => some (List.replicate 256 0)

/-! ### Byte-stream parser model

The source walks a `Cursor` over the section byte stream, calling
`read_exact` (panicking via `unwrap` on truncation) and indexing `Vec`s
(panicking on out-of-bounds). A parser is a function from the byte list
and cursor position to `Option (result × new position)`; `none` models the
panic aborting the whole decode. -/

def P (α : Type) : Type := List Nat → Nat → Option (α × Nat)

/-- Parser returning a value without consuming input. -/
def P.pure {α : Type} (a : α) : P α := fun _ pos => some (a, pos)

/-- Parser sequencing: a failure in the first step aborts the whole. -/
def P.bind {α β : Type} (p : P α) (q : α → P β) : P β := fun bs pos =>
  match p bs pos with
  | none => none
  | some (a, pos1) => q a bs pos1

instance : Monad P where
  pure := P.pure
  bind := P.bind

/-- Embedding of `cur.read_exact(&mut buf).unwrap()` for an `n`-byte
buffer: yields the `n` bytes at the cursor and advances it, failing when
fewer than `n` bytes remain. -/
def readExact (n : Nat) : P (List Nat) := fun bs pos =>
  if pos + n ≤ bs.length then some ((bs.drop pos).take n, pos + n) else none

/-- Single-byte read (the 1-byte `read_exact` for bits-per-block). -/
def readByte : P Nat := fun bs pos =>
  match bs[pos]? with
  | some b => some (b, pos + 1)
  | none => none

/-- Lift a pure `Option` computation (a possibly panicking pure step, such
as the extraction loop) into the parser. -/
def liftOpt {α : Type} (o : Option α) : P α := fun _ pos =>
  o.map (fun a => (a, pos))

/-- Modelled from the spec: the repository's `network::read_varint` is not
under `src/`; the spec describes palette counts, palette entries and array
lengths as variable-length integers. This is the standard protocol varint:
7 value bits per byte, least-significant group first, high bit set on all
but the final byte, at most five bytes. -/
def readVarintAux : Nat → Nat → Nat → P Nat
  | 0, _, _ => fun _ _ => none
  | fuel + 1, acc, shift =>
    P.bind readByte (fun b =>
      let acc1 := acc + (b % 128) <<< shift
      if b < 128 then P.pure acc1 else readVarintAux fuel acc1 (shift + 7))

/-- Modelled from the spec: variable-length integer read, see
`readVarintAux`. -/
def readVarint : P Nat := readVarintAux 5 0 0

/-- Read `n` successive values with the given parser (the
`for _ in 0..n { ... push(read ...) }` loops of the source). -/
def readN {α : Type} (p : P α) : Nat → P (List α)
  | 0 => P.pure []
  | n + 1 =>
    P.bind p (fun a =>
    P.bind (readN p n) (fun rest =>
    P.pure (a :: rest)))

/-- Big-endian byte-list to number conversion
(`i64::from_be_bytes`, kept as the 64-bit pattern). -/
def beBytesToNat (bytes : List Nat) : Nat :=
  bytes.foldl (fun acc b => acc * 256 + b) 0

/-- Read one packed long: 8 bytes, big-endian. -/
def readLong : P Nat := P.bind (readExact 8) (fun bytes => P.pure (beBytesToNat bytes))

/-! ### Section decoder (`process_sections`) -/

/-- The source's `MAX_BITS_PER_BLOCK` constant. -/
def MAX_BITS_PER_BLOCK : Nat := 15

/-- Embedding of the bits-per-block normalization: the source runs
`if bits_per_block <= 4 { bits_per_block = 4 }` then
`if bits_per_block >= 9 { bits_per_block = MAX_BITS_PER_BLOCK }`
sequentially on the same variable. -/
def normalizeBpb (b : Nat) : Nat :=
  let b1 := if b ≤ 4 then 4 else b
  if 9 ≤ b1 then MAX_BITS_PER_BLOCK else b1

/-- Embedding of the mask construction loop:
`for j in 0..bits_per_block { mask |= 1 << j }`. -/
def maskOf (bits : Nat) : Nat :=
  (List.range bits).foldl (fun m j => m ||| (1 <<< j)) 0

/-- Extraction of the packed value for block slot `j`:
`let long = j / blocks_per_long; let start = (j % blocks_per_long) * bits_per_block;
(array[long] >> start) & mask`. `Vec` indexing out of bounds is a panic,
hence `Option`. Since `start + bits_per_block ≤ 64` always holds here, the
`i64` arithmetic shift plus mask of the source equals `>>>` / `&&&` on the
64-bit pattern. -/
def extractOne (array : List Nat) (bpb : Nat) (j : Nat) : Option Nat :=
  let blocksPerLong := 64 / bpb
  let long := j / blocksPerLong
  let start := (j % blocksPerLong) * bpb
  (array[long]?).map (fun v => (v >>> start) &&& maskOf bpb)

/-- Resolution of an extracted value to the stored `u16`: palette lookup
(`pal[block as usize] as u16`, panicking when the index is out of bounds)
when a palette is present, otherwise the raw value (`block as u16`). -/
def resolveBlock (palette : Option (List Nat)) (block : Nat) : Option Nat :=
  match palette with
  | some pal => (pal[block]?).map (fun p => p % 65536)
  | none => some (block % 65536)

/-- The 4096-iteration extraction loop of the source. -/
def extractBlocks (palette : Option (List Nat)) (array : List Nat) (bpb : Nat) :
    Option (List Nat) :=
  listOptMap
    (fun j =>
      match extractOne array bpb j with
      | none => none
      | some block => resolveBlock palette block)
    (List.range 4096)

/-- Palette read of one section: present (a varint count, then that many
varint global ids) exactly when the normalized bits-per-block is `< 9`,
mirroring `if bits_per_block < 9 { ... palette ... } else { palette = None }`. -/
def sfPalette (bpb : Nat) : P (Option (List Nat)) :=
  if bpb < 9 then
    P.bind readVarint (fun palLen =>
    P.bind (readN readVarint palLen) (fun entries =>
    P.pure (some entries)))
  else P.pure none

/-- Long-array read of one section: a varint element count then that many
8-byte big-endian longs, returning the section state read so far. -/
def sfLongs (bpb : Nat) (palette : Option (List Nat)) :
    P (Nat × Option (List Nat) × List Nat) :=
  P.bind readVarint (fun arrayLen =>
  P.bind (readN readLong arrayLen) (fun array =>
  P.pure (bpb, palette, array)))

/-- The field reads of one present section, in source order: the 2-byte
block count (informational, consumed and discarded), the bits-per-block
byte (then normalized), the palette exactly when the normalized
bits-per-block is `< 9`, the varint long-array length, then that many
8-byte big-endian longs. Returns the normalized bits-per-block, the
optional palette and the long array. -/
def sectionFields : P (Nat × Option (List Nat) × List Nat) :=
  P.bind (readExact 2) (fun _blockCount =>
  P.bind readByte (fun b0 =>
  P.bind (sfPalette (normalizeBpb b0)) (fun palette =>
  sfLongs (normalizeBpb b0) palette)))

/-- Decode of one present section: field reads followed by the extraction
loop. -/
def decodeSection : P (List Nat) :=
  P.bind sectionFields (fun f => liftOpt (extractBlocks f.2.1 f.2.2 f.1))

/-- The per-index loop of `process_sections`: for each section index, a
present bit (`mask & (1 << i) != 0`) decodes a section (the slot holds the
section with `y = i` and no render artifact yet), an absent bit leaves the
slot `None`. -/
def sectionsLoop (V : Type) (mask : Nat) :
    List Nat → P (List (Option (ChunkSection × Option V)))
  | [] => P.pure []
  | i :: rest =>
    if mask &&& (1 <<< i) ≠ 0 then
      P.bind decodeSection (fun blocks =>
      P.bind (sectionsLoop V mask rest) (fun tail =>
      P.pure (some (⟨(i : Int), blocks⟩, none) :: tail)))
    else
      P.bind (sectionsLoop V mask rest) (fun tail =>
      P.pure (none :: tail))

/-- Embedding of `process_sections`: the loop over the 16 section slots. -/
def process_sections (V : Type) (mask : Nat) :
    P (List (Option (ChunkSection × Option V))) :=
  sectionsLoop V mask (List.range 16)

/-- Running `process_sections` from cursor position 0, as `Chunk::new`
does with a fresh `Cursor`. -/
def processSectionsRun (V : Type) (mask : Nat) (bs : List Nat) :
    Option (List (Option (ChunkSection × Option V)) × Nat) :=
  process_sections V mask bs 0

/-- Embedding of `Chunk::new`: heightmap first, then the sections (struct
fields are evaluated in source order); a panic anywhere yields no chunk. -/
def Chunk.new (V : Type) (pos : IVec2) (mask : Nat) (heightTag : Tag)
    (bs : List Nat) : Option (Chunk V) :=
  match process_heightmap heightTag with
  | none => none
  | some hm =>
    match processSectionsRun V mask bs with
    | none => none
    | some (secs, _) => some ⟨pos, hm, secs⟩

/-! ### Spec-side packing and serialization

These definitions follow the spec's declared wire layout (they are the
"known blocks → packed longs → bytes" side of the round-trip properties);
the decoding side above is the embedding of the source. -/

/-- Block values beyond slot 4095 do not exist; padding bits of the last
long are zero. -/
def padVals (vals : Nat → Nat) (i : Nat) : Nat := if i < 4096 then vals i else 0

/-- Value of one long holding `count` consecutive slots starting at
`base`, each `b` bits wide at bit offset `(slot − base) * b`: slot values
are the base-`2 ^ b` digits of the long. -/
def packChunkAt (vals : Nat → Nat) (b : Nat) (base : Nat) : Nat → Nat
  | 0 => 0
  | k + 1 => vals base + 2 ^ b * packChunkAt vals b (base + 1) k

/-- Packing per the spec's declared layout: `blocks_per_long = 64 / b`;
slot `j` occupies `b` bits at offset `(j % blocks_per_long) * b` of long
`j / blocks_per_long`; no value spans two longs; unused high bits are
zero. The long count `4095 / blocks_per_long + 1` is the least covering
all 4096 slots. -/
def packLongs (vals : Nat → Nat) (b : Nat) : List Nat :=
  let bpl := 64 / b
  (List.range (4095 / bpl + 1)).map (fun l => packChunkAt (padVals vals) b (l * bpl) bpl)

/-- Modelled from the spec: encoder for the variable-length integer format
read by `readVarint` (7 value bits per byte, least-significant group
first, high bit marks continuation). -/
def encodeVarint (v : Nat) : List Nat :=
  if h : v < 128 then [v]
  else (v % 128 + 128) :: encodeVarint (v / 128)
termination_by v
decreasing_by exact Nat.div_lt_self (by omega) (by omega)

/-- Big-endian encoding of a value into `n` bytes. -/
def encodeBE : Nat → Nat → List Nat
  | 0, _ => []
  | k + 1, v => encodeBE k (v / 256) ++ [v % 256]

/-- Serialization of one section's byte stream per the spec's declared
field order: 2 count bytes, the raw bits-per-block byte, the palette
(varint length then varint entries) exactly when the normalized
bits-per-block is `< 9`, the varint long count, then the longs as 8-byte
big-endian values. -/
def serializeSection (cnt : List Nat) (b0 : Nat) (pal : List Nat) (longs : List Nat) :
    List Nat :=
  cnt ++ [b0] ++
  (if normalizeBpb b0 < 9 then encodeVarint pal.length ++ pal.flatMap encodeVarint
   else []) ++
  encodeVarint longs.length ++ longs.flatMap (encodeBE 8)

/-! ### Helper lemmas -/

/-- A loop body that succeeds pointwise makes the whole loop succeed with
the pointwise results. -/
theorem listOptMap_of_forall {α β : Type} (f : α → Option β) (g : α → β) :
    ∀ (l : List α), (∀ a ∈ l, f a = some (g a)) → listOptMap f l = some (l.map g) := by
  intro l
  induction l with
  | nil => intro _; rfl
  | cons a rest ih =>
    intro h
    have ha : f a = some (g a) := h a (List.mem_cons_self a rest)
    have hrest : listOptMap f rest = some (rest.map g) :=
      ih (fun x hx => h x (List.mem_cons_of_mem a hx))
    simp [listOptMap, ha, hrest]

/-- A loop body that fails at some element makes the whole loop fail. -/
theorem listOptMap_eq_none {α β : Type} (f : α → Option β) :
    ∀ (l : List α) (a : α), a ∈ l → f a = none → listOptMap f l = none := by
  intro l
  induction l with
  | nil => intro a ha _; cases ha
  | cons x rest ih =>
    intro a ha hfa
    rcases List.mem_cons.1 ha with rfl | hmem
    · simp [listOptMap, hfa]
    · cases hx : f x with
      | none => simp [listOptMap, hx]
      | some b => simp [listOptMap, hx, ih a hmem hfa]

/-- Entries of a successful loop result are the pointwise images. -/
theorem listOptMap_getElem {α β : Type} (f : α → Option β) :
    ∀ (l : List α) (bs : List β), listOptMap f l = some bs →
      ∀ (i : Nat) (a : α), l[i]? = some a → bs[i]? = f a := by
  intro l
  induction l with
  | nil => intro bs _ i a ha; simp at ha
  | cons x rest ih =>
    intro bs hbs i a ha
    cases hfx : f x with
    | none => simp [listOptMap, hfx] at hbs
    | some b =>
      cases hrest : listOptMap f rest with
      | none => simp [listOptMap, hfx, hrest] at hbs
      | some bs2 =>
        have hb : bs = b :: bs2 := by
          simp [listOptMap, hfx, hrest] at hbs
          exact hbs.symm
        subst hb
        cases i with
        | zero =>
          simp at ha
          subst ha
          simpa using hfx.symm
        | succ k =>
          simp at ha ⊢
          exact ih bs2 hrest k a (by simpa using ha)

/-- Length of a successful loop result. -/
theorem listOptMap_length {α β : Type} (f : α → Option β) :
    ∀ (l : List α) (bs : List β), listOptMap f l = some bs → bs.length = l.length := by
  intro l
  induction l with
  | nil =>
    intro bs hbs
    simp [listOptMap] at hbs
    simp [← hbs]
  | cons x rest ih =>
    intro bs hbs
    cases hfx : f x with
    | none => simp [listOptMap, hfx] at hbs
    | some b =>
      cases hrest : listOptMap f rest with
      | none => simp [listOptMap, hfx, hrest] at hbs
      | some bs2 =>
        have hb : bs = b :: bs2 := by
          simp [listOptMap, hfx, hrest] at hbs
          exact hbs.symm
        subst hb
        simp [ih bs2 hrest]

/-! ### Claims -/

/-- C6: for every world coordinate, including negative `x`/`z`, the owning
chunk position is the floor division of `x`/`z` by 16, the chunk-local
coordinates are the Euclidean remainders with `y` unchanged, and mapping
the local coordinates back through the owning chunk's position recovers the
original world coordinate; in particular world `(-1, 5, -1)` maps to chunk
`(-1, -1)` and local `(15, 5, 15)` and back. -/
theorem claim_c6_world_chunk_roundtrip : (∀ (x y z : Int),
      Chunk.chunk_containing ⟨x, y, z⟩ = ⟨Int.fdiv x 16, Int.fdiv z 16⟩
    ∧ Chunk.map_from_world_coords ⟨x, y, z⟩ = ⟨x % 16, y, z % 16⟩
    ∧ Chunk.map_to_world_coords (Chunk.chunk_containing ⟨x, y, z⟩)
        (Chunk.map_from_world_coords ⟨x, y, z⟩) = some ⟨x, y, z⟩)
  ∧ Chunk.chunk_containing ⟨-1, 5, -1⟩ = ⟨-1, -1⟩
  ∧ Chunk.map_from_world_coords ⟨-1, 5, -1⟩ = ⟨15, 5, 15⟩
  ∧ Chunk.map_to_world_coords ⟨-1, -1⟩ ⟨15, 5, 15⟩ = some ⟨-1, 5, -1⟩ := by
  refine ⟨fun x y z => ⟨rfl, rfl, ?_⟩, by decide, by decide, by decide⟩
  have hx0 : (0 : Int) ≤ x % 16 := Int.emod_nonneg x (by norm_num)
  have hx1 : x % 16 < 16 := Int.emod_lt_of_pos x (by norm_num)
  have hz0 : (0 : Int) ≤ z % 16 := Int.emod_nonneg z (by norm_num)
  have hz1 : z % 16 < 16 := Int.emod_lt_of_pos z (by norm_num)
  have hfx : Int.fdiv x 16 = x / 16 := Int.fdiv_eq_ediv x (by norm_num)
  have hfz : Int.fdiv z 16 = z / 16 := Int.fdiv_eq_ediv z (by norm_num)
  simp only [Chunk.map_to_world_coords, Chunk.chunk_containing,
    Chunk.map_from_world_coords, hfx, hfz]
  rw [if_pos ⟨hx0, hx1, hz0, hz1⟩]
  have ex : x / 16 * 16 + x % 16 = x := by omega
  have ez : z / 16 * 16 + z % 16 = z := by omega
  simp [ex, ez]

/-- C7 counterexample: at world `y = -1` the source computes
`(-1 as usize) / 16`, which is `(2 ^ 64 − 1) / 16`, not the floor division
`-1 div 16 = -1` the claim states. -/
theorem claim_c7_counterexample :
    (ChunkSection.section_containing (-1) : Int) ≠ Int.fdiv (-1) 16 := by decide

/-- C7 amended: for nonnegative world `y` (in the `i32` range) the section
index is `y div 16` with floor-division semantics and
`get_section_containing` fetches the section at that index; for negative
`y` the `i32 as usize` cast wraps modulo `2 ^ 64`, so the index is
`(2 ^ 64 + y) / 16`, not the floor division. -/
theorem claim_c7_amended : ∀ (y : Int),
    (0 ≤ y → y < 2 ^ 31 → (ChunkSection.section_containing y : Int) = Int.fdiv y 16)
  ∧ (-2 ^ 31 ≤ y → y < 0 →
      (ChunkSection.section_containing y : Int) = (2 ^ 64 + y) / 16)
  ∧ (∀ (V : Type) (c : Chunk V),
      Chunk.get_section_containing c y = Chunk.get_section c (ChunkSection.section_containing y)) := by
  intro y
  refine ⟨fun h0 h1 => ?_, fun h0 h1 => ?_, fun V c => rfl⟩
  · rw [Int.fdiv_eq_ediv y (by norm_num)]
    unfold ChunkSection.section_containing
    have hm : y % (2 ^ 64 : Int) = y := by omega
    rw [hm]
    omega
  · unfold ChunkSection.section_containing
    have hm : y % (2 ^ 64 : Int) = 2 ^ 64 + y := by omega
    rw [hm]
    omega

/-- C7 amended witness at `y = 32`. -/
theorem claim_c7_amended_witness :
    (0 : Int) ≤ 32 ∧ (32 : Int) < 2 ^ 31
  ∧ (ChunkSection.section_containing 32 : Int) = Int.fdiv 32 16 := by
  refine ⟨by norm_num, by norm_num, (claim_c7_amended 32).1 (by norm_num) (by norm_num)⟩

/-- C10: with the chunk's 16-slot section array, `get_section` and
`get_section_vbo` are total: out-of-range indices and unpopulated slots
give `none`, and a returned value comes only from a populated in-range
slot. -/
theorem claim_c10_accessors_total : ∀ (V : Type) (c : Chunk V) (y : Nat),
    c.sections.length = 16 →
      ((16 ≤ y → c.get_section y = none ∧ c.get_section_vbo y = none)
    ∧ (c.sections.getD y none = none → c.get_section y = none ∧ c.get_section_vbo y = none)
    ∧ (∀ s, c.get_section y = some s →
        y < 16 ∧ ∃ vbo, c.sections.getD y none = some (s, vbo))
    ∧ (∀ v, c.get_section_vbo y = some v →
        y < 16 ∧ ∃ s, c.sections.getD y none = some (s, some v))) := by
  intro V c y hlen
  refine ⟨fun hy => ?_, fun hnone => ?_, fun s hs => ?_, fun v hv => ?_⟩
  · have h : c.sections.getD y none = none := List.getD_eq_default _ _ (by omega)
    constructor
    · unfold Chunk.get_section; rw [h]; rfl
    · unfold Chunk.get_section_vbo; rw [h]
  · constructor
    · unfold Chunk.get_section; rw [hnone]; rfl
    · unfold Chunk.get_section_vbo; rw [hnone]
  · unfold Chunk.get_section at hs
    cases hslot : c.sections.getD y none with
    | none => rw [hslot] at hs; simp at hs
    | some p =>
      obtain ⟨ps, pv⟩ := p
      rw [hslot] at hs
      simp at hs
      have hy : y < 16 := by
        by_contra hge
        rw [List.getD_eq_default _ _ (by omega)] at hslot
        exact Option.noConfusion hslot
      refine ⟨hy, pv, ?_⟩
      rw [hs]
  · unfold Chunk.get_section_vbo at hv
    cases hslot : c.sections.getD y none with
    | none => rw [hslot] at hv; exact Option.noConfusion hv
    | some p =>
      obtain ⟨ps, pv⟩ := p
      rw [hslot] at hv
      simp at hv
      have hy : y < 16 := by
        by_contra hge
        rw [List.getD_eq_default _ _ (by omega)] at hslot
        exact Option.noConfusion hslot
      refine ⟨hy, ps, ?_⟩
      rw [hv]

/-- C10 witness: a chunk with 16 empty slots queried at index 20. -/
theorem claim_c10_accessors_total_witness :
    (List.replicate 16 (none : Option (ChunkSection × Option Unit))).length = 16
  ∧ (Chunk.get_section (V := Unit) ⟨⟨0, 0⟩, [], List.replicate 16 none⟩ 20 = none
    ∧ Chunk.get_section_vbo (V := Unit) ⟨⟨0, 0⟩, [], List.replicate 16 none⟩ 20 = none) := by
  refine ⟨by simp, (claim_c10_accessors_total Unit ⟨⟨0, 0⟩, [], List.replicate 16 none⟩ 20 (by simp)).1 (by omega)⟩

/-- C1: the claim says height entry `i` is read from packed long `i / 7`;
the source instead computes the long index as `1 / vals_per_long = 0`, so
every entry is read from long 0. On a heightmap whose `MOTION_BLOCKING`
long array is `[0, 511]`, entry 7 should be read from long `7 / 7 = 1`
(value 511) but the decoder produces 0. -/
theorem claim_c1_long_index_bug :
    (process_heightmap (Tag.compound
        [("MOTION_BLOCKING", Tag.longArray [0, 511]),
         ("WORLD_SURFACE", Tag.stringTag "w")])).map (fun m => m.getD 7 0) = some 0
  ∧ (([0, 511].getD (7 / 7) 0) >>> ((7 % 7) * 9)) &&& 0x1ff = 511 := by
  exact ⟨by decide, by decide⟩

/-- C8 counterexample: a compound of the expected shape containing the
`MOTION_BLOCKING` long-array entry plus two other named entries (three in
total) decodes to the all-zero map — the decoder rejects any compound whose
entry count is not exactly 2 — whereas extraction from the entry itself
would give 511 at index 0, so the entries are not populated from the
surface-height entry and the other entries are not ignored. -/
theorem claim_c8_counterexample :
    process_heightmap (Tag.compound
        [("MOTION_BLOCKING", Tag.longArray [511]),
         ("A", Tag.intTag 1), ("B", Tag.intTag 2)]) = some (List.replicate 256 0)
  ∧ heightmapFromLongs [511] ≠ some (List.replicate 256 0) := by
  exact ⟨by decide, by decide⟩

/-- C8 amended: provided the compound holds exactly two named entries, of
which the one named `MOTION_BLOCKING` carries a nonempty long array,
extraction populates all 256 entries from that entry (via the source's
per-entry extraction `heightmapFromLongs`) and ignores the other entry,
whatever its name and payload and in either order; with any other entry
count the decoder returns the all-zero map instead. -/
theorem claim_c8_amended : ∀ (nm : String) (other : Tag) (longs : List Nat),
    longs ≠ [] → nm ≠ "MOTION_BLOCKING" →
    ∃ m, heightmapFromLongs longs = some m ∧ m.length = 256
      ∧ process_heightmap (Tag.compound
          [("MOTION_BLOCKING", Tag.longArray longs), (nm, other)]) = some m
      ∧ process_heightmap (Tag.compound
          [(nm, other), ("MOTION_BLOCKING", Tag.longArray longs)]) = some m := by
  intro nm other longs hne hnm
  obtain ⟨l0, lrest, rfl⟩ : ∃ l0 lrest, longs = l0 :: lrest := by
    cases longs with
    | nil => exact absurd rfl hne
    | cons a rest => exact ⟨a, rest, rfl⟩
  have hentry : ∀ i : Nat, heightmapEntry (l0 :: lrest) i =
      some ((l0 >>> ((i % 7) * 9)) &&& 0x1ff) := by
    intro i
    simp [heightmapEntry]
  have hfrom : heightmapFromLongs (l0 :: lrest) =
      some ((List.range 256).map (fun i => (l0 >>> ((i % 7) * 9)) &&& 0x1ff)) := by
    unfold heightmapFromLongs
    exact listOptMap_of_forall _ _ _ (fun a _ => hentry a)
  refine ⟨_, hfrom, by simp, ?_, ?_⟩
  · show process_heightmap _ = _
    unfold process_heightmap
    simp only [List.length_cons, List.length_nil]
    rw [if_neg (by omega)]
    unfold heightmapLoop
    rw [if_pos rfl, hfrom]
    cases other <;> simp [heightmapLoop, hnm]
  · show process_heightmap _ = _
    unfold process_heightmap
    simp only [List.length_cons, List.length_nil]
    rw [if_neg (by omega)]
    cases other <;> simp [heightmapLoop, hnm, hfrom]

/-- C8 amended witness: two entries, `MOTION_BLOCKING` holding `[511]` and
an unrelated integer entry. -/
theorem claim_c8_amended_witness :
    ([511] : List Nat) ≠ [] ∧ "A" ≠ "MOTION_BLOCKING"
  ∧ ∃ m, heightmapFromLongs [511] = some m ∧ m.length = 256
      ∧ process_heightmap (Tag.compound
          [("MOTION_BLOCKING", Tag.longArray [511]), ("A", Tag.intTag 1)]) = some m
      ∧ process_heightmap (Tag.compound
          [("A", Tag.intTag 1), ("MOTION_BLOCKING", Tag.longArray [511])]) = some m := by
  exact ⟨by decide, by decide, claim_c8_amended "A" (Tag.intTag 1) [511] (by decide) (by decide)⟩

/-- Value of the mask loop: `bits` low bits set. -/
theorem maskOf_eq (b : Nat) : maskOf b = 2 ^ b - 1 := by
  induction b with
  | zero => rfl
  | succ k ih =>
    unfold maskOf
    rw [List.range_succ, List.foldl_append]
    have hk : (List.range k).foldl (fun m j => m ||| (1 <<< j)) 0 = maskOf k := rfl
    rw [hk, ih]
    show ((2 ^ k - 1) ||| (1 <<< k)) = 2 ^ (k + 1) - 1
    rw [Nat.shiftLeft_eq, one_mul]
    apply Nat.eq_of_testBit_eq
    intro i
    rw [Nat.testBit_or, Nat.testBit_two_pow_sub_one, Nat.testBit_two_pow_sub_one,
      Nat.testBit_two_pow]
    rcases lt_trichotomy i k with h | h | h
    · have h1 : i < k + 1 := by omega
      have h2 : k ≠ i := by omega
      simp [h, h1, h2]
    · subst h
      simp
    · have h1 : ¬ i < k := by omega
      have h2 : ¬ i < k + 1 := by omega
      have h3 : k ≠ i := by omega
      simp [h1, h2, h3]

/-- Base-`2 ^ b` digit extraction from a packed long: slot `m` of the long
holding `n` slots from `base` is recovered by shifting `m * b` bits and
keeping `b` bits. -/
theorem packChunkAt_digit (b : Nat) (_hb : 0 < b) (vals : Nat → Nat)
    (hv : ∀ i, vals i < 2 ^ b) :
    ∀ (n m base : Nat), m < n →
      packChunkAt vals b base n / 2 ^ (m * b) % 2 ^ b = vals (base + m) := by
  intro n
  induction n with
  | zero => intro m base h; exact absurd h (Nat.not_lt_zero m)
  | succ k ih =>
    intro m base hm
    cases m with
    | zero =>
      show packChunkAt vals b base (k + 1) / 2 ^ (0 * b) % 2 ^ b = vals (base + 0)
      unfold packChunkAt
      rw [Nat.zero_mul, pow_zero, Nat.div_one, Nat.add_mul_mod_self_left,
        Nat.add_zero]
      exact Nat.mod_eq_of_lt (hv base)
    | succ m' =>
      have hm' : m' < k := by omega
      show packChunkAt vals b base (k + 1) / 2 ^ ((m' + 1) * b) % 2 ^ b
        = vals (base + (m' + 1))
      unfold packChunkAt
      rw [Nat.succ_mul, Nat.add_comm (m' * b) b, pow_add,
        ← Nat.div_div_eq_div_mul,
        Nat.add_mul_div_left _ _ (Nat.two_pow_pos b),
        Nat.div_eq_of_lt (hv base), Nat.zero_add]
      rw [ih m' (base + 1) hm']
      congr 1
      omega

/-- Unpacking recovers each packed slot: the source's `extractOne` applied
to the spec-packed longs yields the original value of every slot. -/
theorem extractOne_packLongs (b : Nat) (hbpos : 0 < b) (hble : b ≤ 64)
    (vals : Nat → Nat) (hv : ∀ i, i < 4096 → vals i < 2 ^ b)
    (j : Nat) (hj : j < 4096) :
    extractOne (packLongs vals b) b j = some (vals j) := by
  have hbplpos : 0 < 64 / b := Nat.div_pos hble hbpos
  have hpad : ∀ i, padVals vals i < 2 ^ b := by
    intro i
    unfold padVals
    split
    · exact hv i ‹_›
    · exact Nat.two_pow_pos b
  have hidx : j / (64 / b) < 4095 / (64 / b) + 1 := by
    have h1 : j / (64 / b) ≤ 4095 / (64 / b) := Nat.div_le_div_right (by omega)
    omega
  have harr : (packLongs vals b)[j / (64 / b)]? =
      some (packChunkAt (padVals vals) b ((j / (64 / b)) * (64 / b)) (64 / b)) := by
    unfold packLongs
    rw [List.getElem?_map, List.getElem?_range hidx]
    rfl
  have hdigit := packChunkAt_digit b hbpos (padVals vals) hpad (64 / b)
    (j % (64 / b)) ((j / (64 / b)) * (64 / b)) (Nat.mod_lt j hbplpos)
  simp only [extractOne]
  rw [harr]
  have hval : (packChunkAt (padVals vals) b ((j / (64 / b)) * (64 / b)) (64 / b) >>>
        ((j % (64 / b)) * b)) &&& maskOf b = vals j := by
    rw [maskOf_eq, Nat.shiftRight_eq_div_pow, Nat.and_pow_two_sub_one_eq_mod, hdigit]
    have hjj : (j / (64 / b)) * (64 / b) + j % (64 / b) = j := by
      rw [Nat.mul_comm]
      exact Nat.div_add_mod j (64 / b)
    rw [hjj]
    unfold padVals
    rw [if_pos hj]
  simp [hval]

/-- C2: for every bits-per-block width in `{4, 5, 6, 7, 8, 15}` and every
4096-entry block array whose values fit that width, packing per the
declared layout and then decoding with the source's extraction loop
reproduces the original array exactly. -/
theorem claim_c2_pack_roundtrip : ∀ (b : Nat), b ∈ ([4, 5, 6, 7, 8, 15] : List Nat) →
    ∀ (vals : Nat → Nat), (∀ j, j < 4096 → vals j < 2 ^ b) →
      extractBlocks none (packLongs vals b) b = some ((List.range 4096).map vals) := by
  intro b hb vals hv
  have hrange : 0 < b ∧ b ≤ 15 := by
    simp only [List.mem_cons, List.mem_singleton] at hb
    rcases hb with rfl | rfl | rfl | rfl | rfl | rfl | h
    · exact ⟨by norm_num, by norm_num⟩
    · exact ⟨by norm_num, by norm_num⟩
    · exact ⟨by norm_num, by norm_num⟩
    · exact ⟨by norm_num, by norm_num⟩
    · exact ⟨by norm_num, by norm_num⟩
    · exact ⟨by norm_num, by norm_num⟩
    · simp at h
  obtain ⟨hbpos, hble⟩ := hrange
  unfold extractBlocks
  apply listOptMap_of_forall
  intro j hj
  have hj4096 : j < 4096 := List.mem_range.1 hj
  rw [extractOne_packLongs b hbpos (by omega) vals hv j hj4096]
  show resolveBlock none (vals j) = some (vals j)
  unfold resolveBlock
  have hlt : vals j < 65536 := by
    have h1 : vals j < 2 ^ b := hv j hj4096
    have h2 : (2 : Nat) ^ b ≤ 2 ^ 15 := Nat.pow_le_pow_right (by norm_num) hble
    omega
  rw [Nat.mod_eq_of_lt hlt]

/-- C2 witness: the constant array 1 at width 4. -/
theorem claim_c2_pack_roundtrip_witness :
    ((4 : Nat) ∈ ([4, 5, 6, 7, 8, 15] : List Nat))
  ∧ (∀ j, j < 4096 → (fun _ : Nat => (1 : Nat)) j < 2 ^ 4)
  ∧ extractBlocks none (packLongs (fun _ => 1) 4) 4
      = some ((List.range 4096).map (fun _ => 1)) := by
  exact ⟨by decide, fun j _ => by norm_num,
    claim_c2_pack_roundtrip 4 (by decide) (fun _ => 1) (fun j _ => by norm_num)⟩

/-! ### Parsing of serialized streams

The relation `Consumes p xs a` says: wherever it starts, parser `p`
consumes exactly the bytes `xs` and yields `a`, regardless of what
precedes and follows. -/

def Consumes {α : Type} (p : P α) (xs : List Nat) (a : α) : Prop :=
  ∀ (pre rest : List Nat),
    p (pre ++ xs ++ rest) pre.length = some (a, pre.length + xs.length)

theorem consumes_pure {α : Type} (a : α) : Consumes (P.pure a) [] a := by
  intro pre rest
  simp [P.pure]

theorem consumes_bind {α β : Type} {p : P α} {q : α → P β}
    {xs ys : List Nat} {a : α} {b : β}
    (hp : Consumes p xs a) (hq : Consumes (q a) ys b) :
    Consumes (P.bind p q) (xs ++ ys) b := by
  intro pre rest
  have h1 := hp pre (ys ++ rest)
  have h2 := hq (pre ++ xs) rest
  show P.bind p q (pre ++ (xs ++ ys) ++ rest) pre.length
    = some (b, pre.length + (xs ++ ys).length)
  have e1 : pre ++ (xs ++ ys) ++ rest = pre ++ xs ++ (ys ++ rest) := by simp
  have e2 : pre ++ xs ++ ys ++ rest = pre ++ xs ++ (ys ++ rest) := by simp
  have e3 : (pre ++ xs).length = pre.length + xs.length := by simp
  rw [e1]
  rw [e2, e3] at h2
  unfold P.bind
  rw [h1]
  show q a (pre ++ xs ++ (ys ++ rest)) (pre.length + xs.length)
    = some (b, pre.length + (xs ++ ys).length)
  rw [h2]
  have e4 : pre.length + xs.length + ys.length = pre.length + (xs ++ ys).length := by
    simp [Nat.add_assoc]
  rw [e4]

theorem consumes_readByte (b : Nat) : Consumes readByte [b] b := by
  intro pre rest
  unfold readByte
  have h : (pre ++ [b] ++ rest)[pre.length]? = some b := by
    rw [List.append_assoc, List.getElem?_append_right (Nat.le_refl pre.length)]
    simp
  rw [h]
  rfl

theorem consumes_readExact {n : Nat} {xs : List Nat} (h : xs.length = n) :
    Consumes (readExact n) xs xs := by
  intro pre rest
  unfold readExact
  subst h
  have hle : pre.length + xs.length ≤ (pre ++ xs ++ rest).length := by
    simp only [List.length_append]
    omega
  rw [if_pos hle]
  have hdrop : (pre ++ xs ++ rest).drop pre.length = xs ++ rest := by
    rw [List.append_assoc]
    exact List.drop_left pre (xs ++ rest)
  rw [hdrop, List.take_left]

theorem consumes_liftOpt {α : Type} {o : Option α} {a : α} (h : o = some a) :
    Consumes (liftOpt o) [] a := by
  intro pre rest
  simp [liftOpt, h]

/-- Encoded varint length is bounded by the byte budget when the value
fits `7 * k` bits. -/
theorem encodeVarint_length : ∀ (k v : Nat), v < 2 ^ (7 * k + 7) →
    (encodeVarint v).length ≤ k + 1 := by
  intro k
  induction k with
  | zero =>
    intro v hv
    unfold encodeVarint
    split
    · simp
    · exfalso
      omega
  | succ k2 ih =>
    intro v hv
    unfold encodeVarint
    split
    · simp
    · have hrec : (encodeVarint (v / 128)).length ≤ k2 + 1 := by
        apply ih
        have h1 : v < 2 ^ (7 * (k2 + 1) + 7) := hv
        have h2 : (2 : Nat) ^ (7 * (k2 + 1) + 7) = 2 ^ (7 * k2 + 7) * 128 := by
          rw [show 7 * (k2 + 1) + 7 = (7 * k2 + 7) + 7 by ring, pow_add]
          norm_num
        omega
      simp only [List.length_cons]
      omega

/-- A varint decode consumes exactly the encoding and yields the value,
for any accumulator and shift state. -/
theorem consumes_readVarintAux : ∀ (v : Nat), ∀ (fuel acc shift : Nat),
    (encodeVarint v).length ≤ fuel →
    Consumes (readVarintAux fuel acc shift) (encodeVarint v) (acc + v <<< shift) := by
  intro v
  induction v using Nat.strong_induction_on with
  | _ v ih =>
    intro fuel acc shift hlen
    by_cases hv : v < 128
    · have henc : encodeVarint v = [v] := by
        unfold encodeVarint
        rw [dif_pos hv]
      rw [henc] at hlen ⊢
      cases fuel with
      | zero => simp at hlen
      | succ f =>
        unfold readVarintAux
        have hb : Consumes readByte [v] v := consumes_readByte v
        have hcont : Consumes
            ((fun b => let acc1 := acc + (b % 128) <<< shift;
              if b < 128 then P.pure acc1 else readVarintAux f acc1 (shift + 7)) v)
            [] (acc + v <<< shift) := by
          have hmod : v % 128 = v := Nat.mod_eq_of_lt hv
          simpa [hv, hmod] using consumes_pure (acc + v <<< shift)
        have htot := consumes_bind
          (q := fun b => let acc1 := acc + (b % 128) <<< shift;
            if b < 128 then P.pure acc1 else readVarintAux f acc1 (shift + 7))
          hb hcont
        simpa using htot
    · have henc : encodeVarint v = (v % 128 + 128) :: encodeVarint (v / 128) := by
        conv_lhs => unfold encodeVarint
        rw [dif_neg hv]
      rw [henc] at hlen ⊢
      cases fuel with
      | zero => simp at hlen
      | succ f =>
        unfold readVarintAux
        have hb : Consumes readByte [v % 128 + 128] (v % 128 + 128) :=
          consumes_readByte _
        have hlt : v / 128 < v := Nat.div_lt_self (by omega) (by omega)
        have hlen2 : (encodeVarint (v / 128)).length ≤ f := by
          simp only [List.length_cons] at hlen
          omega
        have hrec := ih (v / 128) hlt f (acc + (v % 128) <<< shift) (shift + 7) hlen2
        have hval : acc + (v % 128) <<< shift + (v / 128) <<< (shift + 7)
            = acc + v <<< shift := by
          rw [Nat.shiftLeft_eq, Nat.shiftLeft_eq, Nat.shiftLeft_eq, pow_add]
          have hsplit : v % 128 + 128 * (v / 128) = v := Nat.mod_add_div v 128
          calc acc + v % 128 * 2 ^ shift + v / 128 * (2 ^ shift * 2 ^ 7)
              = acc + (v % 128 + 128 * (v / 128)) * 2 ^ shift := by ring_nf
            _ = acc + v * 2 ^ shift := by rw [hsplit]
        rw [hval] at hrec
        have hcont : Consumes
            ((fun b => let acc1 := acc + (b % 128) <<< shift;
              if b < 128 then P.pure acc1 else readVarintAux f acc1 (shift + 7))
              (v % 128 + 128))
            (encodeVarint (v / 128)) (acc + v <<< shift) := by
          have hge : ¬ (v % 128 + 128 < 128) := by omega
          have hmod : (v % 128 + 128) % 128 = v % 128 := by omega
          simpa [hge, hmod] using hrec
        have htot := consumes_bind
          (q := fun b => let acc1 := acc + (b % 128) <<< shift;
            if b < 128 then P.pure acc1 else readVarintAux f acc1 (shift + 7))
          hb hcont
        simpa using htot

theorem consumes_readVarint {v : Nat} (h : v < 2 ^ 35) :
    Consumes readVarint (encodeVarint v) v := by
  have hlen : (encodeVarint v).length ≤ 5 :=
    encodeVarint_length 4 v (by norm_num at h ⊢; omega)
  have htot := consumes_readVarintAux v 5 0 0 hlen
  simpa using htot

theorem consumes_readN {α : Type} {p : P α} {enc : α → List Nat} :
    ∀ (l : List α), (∀ x ∈ l, Consumes p (enc x) x) →
      Consumes (readN p l.length) (l.flatMap enc) l := by
  intro l
  induction l with
  | nil =>
    intro _
    simpa [readN] using consumes_pure ([] : List α)
  | cons x rest ih =>
    intro h
    have hx : Consumes p (enc x) x := h x (List.mem_cons_self x rest)
    have hrest := ih (fun y hy => h y (List.mem_cons_of_mem x hy))
    have h2 : Consumes (P.bind (readN p rest.length) (fun r => P.pure (x :: r)))
        (rest.flatMap enc ++ []) (x :: rest) :=
      consumes_bind (q := fun r => P.pure (x :: r)) hrest (consumes_pure (x :: rest))
    have h3 : Consumes
        (P.bind p (fun a => P.bind (readN p rest.length) (fun r => P.pure (a :: r))))
        (enc x ++ (rest.flatMap enc ++ [])) (x :: rest) :=
      consumes_bind
        (q := fun a => P.bind (readN p rest.length) (fun r => P.pure (a :: r)))
        hx h2
    simpa [readN] using h3

theorem encodeBE_length : ∀ (n v : Nat), (encodeBE n v).length = n := by
  intro n
  induction n with
  | zero => intro v; rfl
  | succ k ih =>
    intro v
    unfold encodeBE
    simp [ih]

theorem foldl_encodeBE : ∀ (n v acc : Nat),
    List.foldl (fun a b => a * 256 + b) acc (encodeBE n v)
      = acc * 256 ^ n + v % 256 ^ n := by
  intro n
  induction n with
  | zero =>
    intro v acc
    simp [encodeBE, Nat.mod_one]
  | succ k ih =>
    intro v acc
    unfold encodeBE
    rw [List.foldl_append, ih (v / 256) acc]
    show (acc * 256 ^ k + v / 256 % 256 ^ k) * 256 + v % 256
      = acc * 256 ^ (k + 1) + v % 256 ^ (k + 1)
    have hmod : v % 256 ^ (k + 1) = v % 256 + 256 * (v / 256 % 256 ^ k) := by
      rw [show (256 : Nat) ^ (k + 1) = 256 * 256 ^ k by ring, Nat.mod_mul]
    rw [hmod]
    ring

theorem consumes_readLong {v : Nat} (h : v < 2 ^ 64) :
    Consumes readLong (encodeBE 8 v) v := by
  unfold readLong
  have h1 : Consumes (readExact 8) (encodeBE 8 v) (encodeBE 8 v) :=
    consumes_readExact (encodeBE_length 8 v)
  have hdec : beBytesToNat (encodeBE 8 v) = v := by
    unfold beBytesToNat
    have h256 : (256 : Nat) ^ 8 = 2 ^ 64 := by norm_num
    rw [foldl_encodeBE 8 v 0, h256, Nat.zero_mul, Nat.zero_add, Nat.mod_eq_of_lt h]
  have h2 : Consumes (P.pure (beBytesToNat (encodeBE 8 v))) [] v := by
    rw [hdec]
    exact consumes_pure v
  have htot := consumes_bind (q := fun bytes => P.pure (beBytesToNat bytes)) h1 h2
  simpa using htot

theorem consumes_sfLongs (bpb : Nat) (palette : Option (List Nat))
    (longs : List Nat) (hlongs : ∀ v ∈ longs, v < 2 ^ 64)
    (hlonglen : longs.length < 2 ^ 35) :
    Consumes (sfLongs bpb palette)
      (encodeVarint longs.length ++ longs.flatMap (encodeBE 8))
      (bpb, palette, longs) := by
  have h1 : Consumes readVarint (encodeVarint longs.length) longs.length :=
    consumes_readVarint hlonglen
  have h2 : Consumes (readN readLong longs.length) (longs.flatMap (encodeBE 8)) longs :=
    consumes_readN longs (fun x hx => consumes_readLong (hlongs x hx))
  have h3 : Consumes
      (P.bind (readN readLong longs.length) (fun array => P.pure (bpb, palette, array)))
      (longs.flatMap (encodeBE 8) ++ []) (bpb, palette, longs) :=
    consumes_bind (q := fun array => P.pure (bpb, palette, array)) h2
      (consumes_pure (bpb, palette, longs))
  have h4 := consumes_bind
    (q := fun arrayLen => P.bind (readN readLong arrayLen)
      (fun array => P.pure (bpb, palette, array)))
    h1 h3
  simpa [sfLongs] using h4

theorem consumes_sfPalette (bpb : Nat) (pal : List Nat)
    (hpal : ∀ v ∈ pal, v < 2 ^ 35) (hpallen : pal.length < 2 ^ 35) :
    Consumes (sfPalette bpb)
      (if bpb < 9 then encodeVarint pal.length ++ pal.flatMap encodeVarint else [])
      (if bpb < 9 then some pal else none) := by
  by_cases hb : bpb < 9
  · rw [if_pos hb, if_pos hb]
    have h1 : Consumes readVarint (encodeVarint pal.length) pal.length :=
      consumes_readVarint hpallen
    have h2 : Consumes (readN readVarint pal.length) (pal.flatMap encodeVarint) pal :=
      consumes_readN pal (fun x hx => consumes_readVarint (hpal x hx))
    have h3 : Consumes
        (P.bind (readN readVarint pal.length) (fun entries => P.pure (some entries)))
        (pal.flatMap encodeVarint ++ []) (some pal) :=
      consumes_bind (q := fun entries => P.pure (some entries)) h2
        (consumes_pure (some pal))
    have h4 := consumes_bind
      (q := fun palLen => P.bind (readN readVarint palLen)
        (fun entries => P.pure (some entries)))
      h1 h3
    have h5 : sfPalette bpb =
        P.bind readVarint (fun palLen => P.bind (readN readVarint palLen)
          (fun entries => P.pure (some entries))) := by
      unfold sfPalette
      rw [if_pos hb]
    rw [h5]
    simpa using h4
  · rw [if_neg hb, if_neg hb]
    have h5 : sfPalette bpb = P.pure none := by
      unfold sfPalette
      rw [if_neg hb]
    rw [h5]
    exact consumes_pure none

theorem consumes_sectionFields (cnt : List Nat) (hcnt : cnt.length = 2) (b0 : Nat)
    (pal : List Nat) (hpal : ∀ v ∈ pal, v < 2 ^ 35) (hpallen : pal.length < 2 ^ 35)
    (longs : List Nat) (hlongs : ∀ v ∈ longs, v < 2 ^ 64)
    (hlonglen : longs.length < 2 ^ 35) :
    Consumes sectionFields (serializeSection cnt b0 pal longs)
      (normalizeBpb b0, (if normalizeBpb b0 < 9 then some pal else none), longs) := by
  have h1 : Consumes (readExact 2) cnt cnt := consumes_readExact hcnt
  have h2 : Consumes readByte [b0] b0 := consumes_readByte b0
  have hpalette := consumes_sfPalette (normalizeBpb b0) pal hpal hpallen
  have htail := consumes_sfLongs (normalizeBpb b0)
    (if normalizeBpb b0 < 9 then some pal else none) longs hlongs hlonglen
  have h3 : Consumes
      (P.bind (sfPalette (normalizeBpb b0)) (fun palette => sfLongs (normalizeBpb b0) palette))
      ((if normalizeBpb b0 < 9 then encodeVarint pal.length ++ pal.flatMap encodeVarint else [])
        ++ (encodeVarint longs.length ++ longs.flatMap (encodeBE 8)))
      (normalizeBpb b0, (if normalizeBpb b0 < 9 then some pal else none), longs) :=
    consumes_bind (q := fun palette => sfLongs (normalizeBpb b0) palette) hpalette htail
  have h4 : Consumes
      (P.bind readByte (fun b1 =>
        P.bind (sfPalette (normalizeBpb b1)) (fun palette => sfLongs (normalizeBpb b1) palette)))
      ([b0] ++ ((if normalizeBpb b0 < 9 then encodeVarint pal.length ++ pal.flatMap encodeVarint else [])
        ++ (encodeVarint longs.length ++ longs.flatMap (encodeBE 8))))
      (normalizeBpb b0, (if normalizeBpb b0 < 9 then some pal else none), longs) :=
    consumes_bind
      (q := fun b1 => P.bind (sfPalette (normalizeBpb b1))
        (fun palette => sfLongs (normalizeBpb b1) palette))
      h2 h3
  have h5 := consumes_bind
    (q := fun _blockCount => P.bind readByte (fun b1 =>
      P.bind (sfPalette (normalizeBpb b1)) (fun palette => sfLongs (normalizeBpb b1) palette)))
    h1 h4
  have heq : serializeSection cnt b0 pal longs =
      cnt ++ ([b0] ++ ((if normalizeBpb b0 < 9 then
          encodeVarint pal.length ++ pal.flatMap encodeVarint else [])
        ++ (encodeVarint longs.length ++ longs.flatMap (encodeBE 8)))) := by
    unfold serializeSection
    simp [List.append_assoc]
  rw [heq]
  exact h5

/-- A serialized section decodes to exactly the extraction-loop result:
successfully when the loop succeeds, and with the failure propagating when
it fails. -/
theorem decodeSection_serialized (cnt : List Nat) (hcnt : cnt.length = 2) (b0 : Nat)
    (pal : List Nat) (hpal : ∀ v ∈ pal, v < 2 ^ 35) (hpallen : pal.length < 2 ^ 35)
    (longs : List Nat) (hlongs : ∀ v ∈ longs, v < 2 ^ 64)
    (hlonglen : longs.length < 2 ^ 35) :
    ∀ (pre rest : List Nat),
      decodeSection (pre ++ serializeSection cnt b0 pal longs ++ rest) pre.length
        = (extractBlocks (if normalizeBpb b0 < 9 then some pal else none) longs
            (normalizeBpb b0)).map
            (fun blocks => (blocks, pre.length + (serializeSection cnt b0 pal longs).length)) := by
  intro pre rest
  have hsf := consumes_sectionFields cnt hcnt b0 pal hpal hpallen longs hlongs hlonglen pre rest
  unfold decodeSection P.bind
  rw [hsf]
  show liftOpt (extractBlocks (if normalizeBpb b0 < 9 then some pal else none) longs
      (normalizeBpb b0)) (pre ++ serializeSection cnt b0 pal longs ++ rest)
      (pre.length + (serializeSection cnt b0 pal longs).length) = _
  unfold liftOpt
  rfl

/-- C5: the bits-per-block byte is normalized (`≤ 4` to 4, `≥ 9` to 15,
`5..8` unchanged); a palette — a varint count then that many varint global
ids — is read exactly when the normalized value is `< 9` (witnessed by the
decode equation over the serialized stream, whose palette part is present
exactly under that condition); each extracted packed value then resolves
through the palette when present and is the global id directly
otherwise. -/
theorem claim_c5_bpb_normalization_palette :
    (∀ b : Nat, (b ≤ 4 → normalizeBpb b = 4) ∧ (9 ≤ b → normalizeBpb b = 15)
      ∧ (5 ≤ b → b ≤ 8 → normalizeBpb b = b))
  ∧ (∀ (cnt : List Nat) (b0 : Nat) (pal longs : List Nat),
      cnt.length = 2 → (∀ v ∈ pal, v < 2 ^ 35) → pal.length < 2 ^ 35 →
      (∀ v ∈ longs, v < 2 ^ 64) → longs.length < 2 ^ 35 →
      ∀ (pre rest : List Nat),
        decodeSection (pre ++ serializeSection cnt b0 pal longs ++ rest) pre.length
          = (extractBlocks (if normalizeBpb b0 < 9 then some pal else none) longs
              (normalizeBpb b0)).map
              (fun blocks => (blocks, pre.length + (serializeSection cnt b0 pal longs).length)))
  ∧ (∀ (palette : Option (List Nat)) (array : List Nat) (bpb : Nat) (blocks : List Nat),
      extractBlocks palette array bpb = some blocks →
      ∀ j, j < 4096 → ∃ block, extractOne array bpb j = some block
        ∧ blocks[j]? = resolveBlock palette block)
  ∧ (∀ (entries : List Nat) (block : Nat),
      resolveBlock (some entries) block = (entries[block]?).map (fun p => p % 65536))
  ∧ (∀ block : Nat, resolveBlock none block = some (block % 65536)) := by
  refine ⟨?_, ?_, ?_, fun entries block => rfl, fun block => rfl⟩
  · intro b
    refine ⟨fun h => ?_, fun h => ?_, fun h1 h2 => ?_⟩
    · simp only [normalizeBpb, MAX_BITS_PER_BLOCK]
      split_ifs <;> omega
    · simp only [normalizeBpb, MAX_BITS_PER_BLOCK]
      split_ifs <;> omega
    · simp only [normalizeBpb, MAX_BITS_PER_BLOCK]
      split_ifs <;> omega
  · intro cnt b0 pal longs hcnt hpal hpallen hlongs hlonglen pre rest
    exact decodeSection_serialized cnt hcnt b0 pal hpal hpallen longs hlongs hlonglen pre rest
  · intro palette array bpb blocks hex j hj
    have hj2 : (List.range 4096)[j]? = some j := List.getElem?_range hj
    cases hext : extractOne array bpb j with
    | none =>
      exfalso
      have hnone : listOptMap
          (fun j2 => match extractOne array bpb j2 with
            | none => none
            | some block => resolveBlock palette block)
          (List.range 4096) = none :=
        listOptMap_eq_none _ (List.range 4096) j (List.mem_range.2 hj) (by simp [hext])
      unfold extractBlocks at hex
      rw [hnone] at hex
      exact Option.noConfusion hex
    | some block =>
      refine ⟨block, rfl, ?_⟩
      have hchar := listOptMap_getElem
        (fun j2 => match extractOne array bpb j2 with
          | none => none
          | some b2 => resolveBlock palette b2)
        (List.range 4096) blocks hex j j hj2
      simp only [hext] at hchar
      exact hchar

/-- C5 witness: a section with raw bits-per-block 4, palette `[9]` and 256
zero longs, decoded from its serialized stream. -/
theorem claim_c5_bpb_normalization_palette_witness :
    ([0, 0] : List Nat).length = 2
  ∧ (∀ v ∈ ([9] : List Nat), v < 2 ^ 35)
  ∧ ([9] : List Nat).length < 2 ^ 35
  ∧ (∀ v ∈ List.replicate 256 (0 : Nat), v < 2 ^ 64)
  ∧ (List.replicate 256 (0 : Nat)).length < 2 ^ 35
  ∧ decodeSection ([] ++ serializeSection [0, 0] 4 [9] (List.replicate 256 0) ++ []) 0
      = (extractBlocks (if normalizeBpb 4 < 9 then some [9] else none)
          (List.replicate 256 0) (normalizeBpb 4)).map
          (fun blocks =>
            (blocks, ([] : List Nat).length + (serializeSection [0, 0] 4 [9] (List.replicate 256 0)).length)) := by
  have hlongs : ∀ v ∈ List.replicate 256 (0 : Nat), v < 2 ^ 64 := by
    intro v hv
    rw [List.eq_of_mem_replicate hv]
    norm_num
  exact ⟨rfl, by norm_num, by norm_num, hlongs, by norm_num,
    claim_c5_bpb_normalization_palette.2.1 [0, 0] 4 [9] (List.replicate 256 0)
      rfl (by norm_num) (by norm_num) hlongs (by norm_num) [] []⟩

def PGood {α : Type} (p : P α) : Prop :=
  ∀ (bs : List Nat) (pos : Nat) (a : α) (fin : Nat), p bs pos = some (a, fin) →
    pos ≤ fin
    ∧ (∀ bs2 : List Nat, bs2.take fin = bs.take fin → p bs2 pos = some (a, fin))
    ∧ (∀ m : Nat, pos ≤ m → m < fin → p (bs.take m) pos = none)

theorem pgood_pure {α : Type} (a : α) : PGood (P.pure a) := by
  intro bs pos a2 fin h
  have h1 : some (a, pos) = some (a2, fin) := h
  obtain ⟨rfl, rfl⟩ : a = a2 ∧ pos = fin := by simpa using h1
  exact ⟨Nat.le_refl pos, fun bs2 _ => rfl, fun m hm1 hm2 => absurd hm2 (by omega)⟩

theorem pgood_bind {α β : Type} {p : P α} {q : α → P β}
    (hp : PGood p) (hq : ∀ a, PGood (q a)) : PGood (P.bind p q) := by
  intro bs pos b fin h
  unfold P.bind at h
  cases hp1 : p bs pos with
  | none => rw [hp1] at h; exact Option.noConfusion h
  | some r =>
    obtain ⟨a, pos1⟩ := r
    rw [hp1] at h
    have h2 : q a bs pos1 = some (b, fin) := h
    obtain ⟨hle1, hext1, htr1⟩ := hp bs pos a pos1 hp1
    obtain ⟨hle2, hext2, htr2⟩ := hq a bs pos1 b fin h2
    refine ⟨Nat.le_trans hle1 hle2, ?_, ?_⟩
    · intro bs2 htake
      have htake1 : bs2.take pos1 = bs.take pos1 := by
        have h3 := congrArg (List.take pos1) htake
        rwa [List.take_take, List.take_take, Nat.min_eq_left hle2] at h3
      have hp2 := hext1 bs2 htake1
      have hq2 := hext2 bs2 htake
      unfold P.bind
      rw [hp2]
      exact hq2
    · intro m hm1 hm2
      unfold P.bind
      by_cases hcase : m < pos1
      · rw [htr1 m hm1 hcase]
      · push_neg at hcase
        have hp2 : p (bs.take m) pos = some (a, pos1) := by
          apply hext1
          rw [List.take_take, Nat.min_eq_left hcase]
        rw [hp2]
        exact htr2 m hcase hm2

theorem pgood_readByte : PGood readByte := by
  intro bs pos a fin h
  unfold readByte at h
  cases hb : bs[pos]? with
  | none => rw [hb] at h; exact Option.noConfusion h
  | some b =>
    rw [hb] at h
    have h1 : some (b, pos + 1) = some (a, fin) := h
    obtain ⟨rfl, rfl⟩ : b = a ∧ pos + 1 = fin := by simpa using h1
    refine ⟨by omega, ?_, ?_⟩
    · intro bs2 htake
      unfold readByte
      have hpos : bs2[pos]? = bs[pos]? := by
        have h3 : (bs2.take (pos + 1))[pos]? = (bs.take (pos + 1))[pos]? := by rw [htake]
        rwa [List.getElem?_take_of_lt (by omega), List.getElem?_take_of_lt (by omega)] at h3
      rw [hpos, hb]
    · intro m hm1 hm2
      have hmp : m = pos := by omega
      subst hmp
      unfold readByte
      rw [List.getElem?_eq_none (by simp [List.length_take])]

theorem pgood_readExact (n : Nat) : PGood (readExact n) := by
  intro bs pos a fin h
  unfold readExact at h
  by_cases hle : pos + n ≤ bs.length
  · rw [if_pos hle] at h
    have h1 : some ((bs.drop pos).take n, pos + n) = some (a, fin) := h
    obtain ⟨ha, hfin⟩ : (bs.drop pos).take n = a ∧ pos + n = fin := by simpa using h1
    subst hfin
    refine ⟨by omega, ?_, ?_⟩
    · intro bs2 htake
      unfold readExact
      have hlen2 : pos + n ≤ bs2.length := by
        have hl := congrArg List.length htake
        simp only [List.length_take] at hl
        omega
      rw [if_pos hlen2]
      have hslice : (bs2.drop pos).take n = (bs.drop pos).take n := by
        have e1 : (bs2.take (pos + n)).drop pos = (bs.take (pos + n)).drop pos := by
          rw [htake]
        rwa [List.drop_take, List.drop_take, show pos + n - pos = n by omega] at e1
      rw [hslice, ha]
    · intro m hm1 hm2
      unfold readExact
      have hno : ¬ (pos + n ≤ (bs.take m).length) := by
        simp only [List.length_take]
        omega
      rw [if_neg hno]
  · rw [if_neg hle] at h
    exact Option.noConfusion h

theorem pgood_liftOpt {α : Type} (o : Option α) : PGood (liftOpt o) := by
  intro bs pos a fin h
  unfold liftOpt at h
  cases ho : o with
  | none => rw [ho] at h; exact Option.noConfusion h
  | some a2 =>
    rw [ho] at h
    have h1 : some (a2, pos) = some (a, fin) := h
    obtain ⟨rfl, rfl⟩ : a2 = a ∧ pos = fin := by simpa using h1
    exact ⟨Nat.le_refl pos, fun bs2 _ => by simp [liftOpt, ho],
      fun m hm1 hm2 => absurd hm2 (by omega)⟩

theorem pgood_ite {α : Type} (c : Prop) [Decidable c] (p q : P α)
    (hp : PGood p) (hq : PGood q) : PGood (if c then p else q) := by
  by_cases h : c
  · rw [if_pos h]; exact hp
  · rw [if_neg h]; exact hq

theorem pgood_readVarintAux : ∀ (fuel acc shift : Nat), PGood (readVarintAux fuel acc shift) := by
  intro fuel
  induction fuel with
  | zero => intro acc shift bs pos a fin h; exact Option.noConfusion h
  | succ f ih =>
    intro acc shift
    unfold readVarintAux
    apply pgood_bind pgood_readByte
    intro b
    show PGood (if b < 128 then P.pure (acc + (b % 128) <<< shift)
      else readVarintAux f (acc + (b % 128) <<< shift) (shift + 7))
    exact pgood_ite _ _ _ (pgood_pure _) (ih _ _)

theorem pgood_readVarint : PGood readVarint := pgood_readVarintAux 5 0 0

theorem pgood_readN {α : Type} (p : P α) (hp : PGood p) : ∀ (n : Nat), PGood (readN p n) := by
  intro n
  induction n with
  | zero => exact pgood_pure []
  | succ k ih =>
    show PGood (P.bind p (fun a => P.bind (readN p k) (fun rest => P.pure (a :: rest))))
    apply pgood_bind hp
    intro a
    apply pgood_bind ih
    intro rest
    exact pgood_pure _

theorem pgood_readLong : PGood readLong := by
  unfold readLong
  apply pgood_bind (pgood_readExact 8)
  intro bytes
  exact pgood_pure _

theorem pgood_sfPalette (bpb : Nat) : PGood (sfPalette bpb) := by
  unfold sfPalette
  apply pgood_ite
  · apply pgood_bind pgood_readVarint
    intro palLen
    apply pgood_bind (pgood_readN _ pgood_readVarint palLen)
    intro entries
    exact pgood_pure _
  · exact pgood_pure none

theorem pgood_sfLongs (bpb : Nat) (palette : Option (List Nat)) :
    PGood (sfLongs bpb palette) := by
  unfold sfLongs
  apply pgood_bind pgood_readVarint
  intro arrayLen
  apply pgood_bind (pgood_readN _ pgood_readLong arrayLen)
  intro array
  exact pgood_pure _

theorem pgood_sectionFields : PGood sectionFields := by
  unfold sectionFields
  apply pgood_bind (pgood_readExact 2)
  intro c
  apply pgood_bind pgood_readByte
  intro b0
  apply pgood_bind (pgood_sfPalette _)
  intro palette
  exact pgood_sfLongs _ _

theorem pgood_decodeSection : PGood decodeSection := by
  unfold decodeSection
  apply pgood_bind pgood_sectionFields
  intro f
  exact pgood_liftOpt _

theorem pgood_sectionsLoop (V : Type) (mask : Nat) :
    ∀ (l : List Nat), PGood (sectionsLoop V mask l) := by
  intro l
  induction l with
  | nil => exact pgood_pure []
  | cons k rest ih =>
    show PGood (if mask &&& (1 <<< k) ≠ 0 then
        P.bind decodeSection (fun blocks =>
        P.bind (sectionsLoop V mask rest) (fun tail =>
        P.pure (some (⟨(k : Int), blocks⟩, none) :: tail)))
      else
        P.bind (sectionsLoop V mask rest) (fun tail =>
        P.pure (none :: tail)))
    apply pgood_ite
    · apply pgood_bind pgood_decodeSection
      intro blocks
      apply pgood_bind ih
      intro tail
      exact pgood_pure _
    · apply pgood_bind ih
      intro tail
      exact pgood_pure _

theorem pgood_process_sections (V : Type) (mask : Nat) : PGood (process_sections V mask) :=
  pgood_sectionsLoop V mask (List.range 16)

/-- C3: whenever the whole section stream parses successfully ending at
cursor `fin`, truncating the stream anywhere strictly before `fin` (the
stream then ends before a declared field is fully read) makes the section
decode fail, and `Chunk::new` on the truncated packet yields no `Chunk` at
all — in particular no partially-populated one. -/
theorem claim_c3_truncated_stream_fatal :
    ∀ (V : Type) (mask : Nat) (bs : List Nat)
      (secs : List (Option (ChunkSection × Option V))) (fin : Nat),
      processSectionsRun V mask bs = some (secs, fin) →
      ∀ m, m < fin →
        processSectionsRun V mask (bs.take m) = none
        ∧ (∀ (pos : IVec2) (tag : Tag), Chunk.new V pos mask tag (bs.take m) = none) := by
  intro V mask bs secs fin h m hm
  obtain ⟨hle, hext, htr⟩ := pgood_process_sections V mask bs 0 secs fin h
  have hnone : process_sections V mask (bs.take m) 0 = none := htr m (Nat.zero_le m) hm
  refine ⟨hnone, fun pos tag => ?_⟩
  unfold Chunk.new
  cases process_heightmap tag with
  | none => rfl
  | some hm2 =>
    show (match processSectionsRun V mask (bs.take m) with
      | none => none
      | some (secs2, _) => some (⟨pos, hm2, secs2⟩ : Chunk V)) = none
    unfold processSectionsRun
    rw [hnone]

/-- Consumption of no bytes by a run of absent section slots. -/
theorem consumes_sectionsLoop_absent (V : Type) (mask : Nat) :
    ∀ (l : List Nat), (∀ k ∈ l, mask &&& (1 <<< k) = 0) →
      Consumes (sectionsLoop V mask l) []
        (l.map (fun _ => (none : Option (ChunkSection × Option V)))) := by
  intro l
  induction l with
  | nil => intro _; exact consumes_pure []
  | cons k rest ih =>
    intro h
    have hk : mask &&& (1 <<< k) = 0 := h k (List.mem_cons_self k rest)
    have hrest := ih (fun x hx => h x (List.mem_cons_of_mem k hx))
    have hloop : sectionsLoop V mask (k :: rest) =
        P.bind (sectionsLoop V mask rest) (fun tail => P.pure (none :: tail)) := by
      show (if mask &&& (1 <<< k) ≠ 0 then _ else _) = _
      rw [if_neg (by omega)]
    rw [hloop]
    have h2 := consumes_bind (q := fun tail => P.pure
        ((none : Option (ChunkSection × Option V)) :: tail))
      hrest (consumes_pure _)
    simpa using h2

/-- A serialized section whose extraction succeeds is consumed exactly by
`decodeSection`. -/
theorem consumes_decodeSection_serialized (cnt : List Nat) (hcnt : cnt.length = 2)
    (b0 : Nat) (pal : List Nat) (hpal : ∀ v ∈ pal, v < 2 ^ 35)
    (hpallen : pal.length < 2 ^ 35) (longs : List Nat)
    (hlongs : ∀ v ∈ longs, v < 2 ^ 64) (hlonglen : longs.length < 2 ^ 35)
    (blocks : List Nat)
    (hex : extractBlocks (if normalizeBpb b0 < 9 then some pal else none) longs
      (normalizeBpb b0) = some blocks) :
    Consumes decodeSection (serializeSection cnt b0 pal longs) blocks := by
  intro pre rest
  rw [decodeSection_serialized cnt hcnt b0 pal hpal hpallen longs hlongs hlonglen pre rest,
    hex]
  rfl

/-- Concrete successful extraction: palette `[9]`, 256 zero longs, width 4:
every block decodes to 9. -/
theorem extractBlocks_pal9 :
    extractBlocks (some [9]) (List.replicate 256 0) 4 = some (List.replicate 4096 9) := by
  have hpoint : ∀ j ∈ List.range 4096,
      (match extractOne (List.replicate 256 0) 4 j with
        | none => none
        | some block => resolveBlock (some [9]) block) = some ((fun _ => 9) j) := by
    intro j hj
    have hj4096 : j < 4096 := List.mem_range.1 hj
    have hidx : j / 16 < 256 := by omega
    have hext : extractOne (List.replicate 256 0) 4 j = some 0 := by
      simp only [extractOne, List.getElem?_replicate]
      rw [if_pos (by omega : j / (64 / 4) < 256)]
      simp only [Option.map_some', Nat.zero_shiftRight, Nat.zero_and]
    rw [hext]
    rfl
  have h := listOptMap_of_forall _ (fun _ => 9) (List.range 4096) hpoint
  unfold extractBlocks
  rw [h, List.map_const', List.length_range]

/-- The one-present-section chunk stream parses successfully, consuming the
whole serialized section. -/
theorem processSectionsRun_pal9 :
    processSectionsRun Unit 1 (serializeSection [0, 0] 4 [9] (List.replicate 256 0))
      = some ((some (⟨(0 : Int), List.replicate 4096 9⟩, none)) ::
          ([1, 2, 3, 4, 5, 6, 7, 8, 9, 10, 11, 12, 13, 14, 15].map
            (fun _ => (none : Option (ChunkSection × Option Unit)))),
          (serializeSection [0, 0] 4 [9] (List.replicate 256 0)).length) := by
  have hlongs : ∀ v ∈ List.replicate 256 (0 : Nat), v < 2 ^ 64 := by
    intro v hv
    rw [List.eq_of_mem_replicate hv]
    norm_num
  have hdec : Consumes decodeSection (serializeSection [0, 0] 4 [9] (List.replicate 256 0))
      (List.replicate 4096 9) := by
    apply consumes_decodeSection_serialized [0, 0] rfl 4 [9] (by norm_num) (by norm_num)
      (List.replicate 256 0) hlongs (by norm_num) (List.replicate 4096 9)
    show extractBlocks (if normalizeBpb 4 < 9 then some [9] else none)
      (List.replicate 256 0) (normalizeBpb 4) = some (List.replicate 4096 9)
    rw [show normalizeBpb 4 = 4 from rfl, if_pos (by norm_num)]
    exact extractBlocks_pal9
  have hskip : Consumes (sectionsLoop Unit 1 [1, 2, 3, 4, 5, 6, 7, 8, 9, 10, 11, 12, 13, 14, 15]) []
      ([1, 2, 3, 4, 5, 6, 7, 8, 9, 10, 11, 12, 13, 14, 15].map
        (fun _ => (none : Option (ChunkSection × Option Unit)))) := by
    apply consumes_sectionsLoop_absent
    decide
  have hcons : Consumes (sectionsLoop Unit 1 (List.range 16))
      (serializeSection [0, 0] 4 [9] (List.replicate 256 0) ++ ([] ++ []))
      ((some (⟨(0 : Int), List.replicate 4096 9⟩, none)) ::
        ([1, 2, 3, 4, 5, 6, 7, 8, 9, 10, 11, 12, 13, 14, 15].map
          (fun _ => (none : Option (ChunkSection × Option Unit))))) := by
    have hrange : List.range 16 = 0 :: [1, 2, 3, 4, 5, 6, 7, 8, 9, 10, 11, 12, 13, 14, 15] := by
      decide
    rw [hrange]
    have hloop : sectionsLoop Unit 1 (0 :: [1, 2, 3, 4, 5, 6, 7, 8, 9, 10, 11, 12, 13, 14, 15]) =
        P.bind decodeSection (fun blocks =>
        P.bind (sectionsLoop Unit 1 [1, 2, 3, 4, 5, 6, 7, 8, 9, 10, 11, 12, 13, 14, 15]) (fun tail =>
        P.pure (some (⟨((0 : Nat) : Int), blocks⟩, none) :: tail))) := by
      show (if (1 : Nat) &&& (1 <<< 0) ≠ 0 then _ else _) = _
      rw [if_pos (by decide)]
    rw [hloop]
    refine consumes_bind
      (q := fun blocks =>
        P.bind (sectionsLoop Unit 1 [1, 2, 3, 4, 5, 6, 7, 8, 9, 10, 11, 12, 13, 14, 15]) (fun tail =>
        P.pure (some (⟨((0 : Nat) : Int), blocks⟩, none) :: tail)))
      hdec ?_
    exact consumes_bind
      (q := fun tail => P.pure (some (⟨((0 : Nat) : Int), List.replicate 4096 9⟩, none) :: tail))
      hskip (consumes_pure _)
  have hrun := hcons [] []
  simp only [List.append_nil, List.nil_append, List.length_nil, Nat.zero_add] at hrun
  unfold processSectionsRun process_sections
  exact hrun

/-- C3 witness: the successfully parsed one-section stream, truncated to
nothing (in particular short of its declared long array), decodes to no
chunk. -/
theorem claim_c3_truncated_stream_fatal_witness :
    ∃ (secs : List (Option (ChunkSection × Option Unit))) (fin : Nat),
      processSectionsRun Unit 1 (serializeSection [0, 0] 4 [9] (List.replicate 256 0))
        = some (secs, fin)
      ∧ 0 < fin
      ∧ processSectionsRun Unit 1
          ((serializeSection [0, 0] 4 [9] (List.replicate 256 0)).take 0) = none
      ∧ Chunk.new Unit ⟨0, 0⟩ 1 (Tag.intTag 0)
          ((serializeSection [0, 0] 4 [9] (List.replicate 256 0)).take 0) = none := by
  have hrun := processSectionsRun_pal9
  have hfin : 0 < (serializeSection [0, 0] 4 [9] (List.replicate 256 0)).length := by
    unfold serializeSection
    simp
  have hmain := claim_c3_truncated_stream_fatal Unit 1
    (serializeSection [0, 0] 4 [9] (List.replicate 256 0)) _ _ hrun 0 hfin
  exact ⟨_, _, hrun, hfin, hmain.1, hmain.2 ⟨0, 0⟩ (Tag.intTag 0)⟩

end MinceRaft
